import Mathlib

/-!
Verification of the MinHash / LSH core of the repository.

The definitions below are shallow embeddings of the Python source:

* `MinHashState`, `mkMinHash`, `hash_function`, `create_signature`,
  `jaccard_similarity` embed the `MinHash` class of
  `src/minhash_similarity.py` (identical to the copy in
  `src/libs/minhash_similarity.py`);
* `exact_jaccard_similarity` embeds the function of the same name in
  `src/libs/minhash_similarity.py`;
* `create_bucket_hash`, `build_buckets`, `lsh_query` embed the `LSH`
  class of `src/locality_sensitive_hashing.py`;
* `generate_minhash_signatures` embeds the function of the same name in
  `src/libs/LSH.py`;
* `collision_probability` embeds the curve plotted by
  `plot_probability_curve` in `src/libs/LSH.py`.

Machine integers are modelled as `ℕ`/`ℤ` (Python integers are unbounded),
numpy float entries of a signature as `Option ℤ` with `none` standing for
the `np.inf` sentinel, and a raised Python exception as a `none` result.
-/

set_option maxHeartbeats 1000000

/-- Embeds Python `str.lower` (used as `self.type_function.lower()`); ASCII
lower-casing applied character by character. -/
def pyLower (s : String) : String := ⟨s.data.map Char.toLower⟩

/-- Embeds the state of a `MinHash` object (`src/minhash_similarity.py`):
number of hash functions, modulus, hash-kind tag and the randomly drawn
coefficient lists. -/
structure MinHashState where
  n_hash_functions : ℕ
  prime : ℕ
  type_function : String
  a : List ℕ
  b : List ℕ
  coefficients : List (List ℕ)
deriving DecidableEq

/-- Embeds `MinHash.__init__`: fails (`none`) when `n_hash_functions <= 0`
or the hash kind is not one of `linear`, `universal`, `polynomial`;
otherwise draws the coefficient lists.  The random draws of
`random.randint` are supplied by the oracle streams `fa`, `fb`, `fc`. -/
def mkMinHash (n : ℕ) (prime_number : ℕ) (type_function : String)
    (fa fb : ℕ → ℕ) (fc : ℕ → ℕ → ℕ) : Option MinHashState :=
  if n = 0 then none
  else if type_function ≠ "linear" ∧ type_function ≠ "universal" ∧
      type_function ≠ "polynomial" then none
  else some
    { n_hash_functions := n
      prime := prime_number
      type_function := type_function
      a := (List.range n).map fa
      b := (List.range n).map fb
      coefficients := (List.range n).map (fun i => (List.range 3).map (fc i)) }

/-- Embeds `MinHash.hash_function`.  The method first re-assigns
`self.type_function` to its lower-cased form (the returned state), then
dispatches on it; the final `ValueError` branch and an out-of-range
coefficient access yield `none`. -/
def hash_function (st : MinHashState) (x a b : ℤ) (i : ℕ) :
    Option ℤ × MinHashState :=
  let tf := pyLower st.type_function
  let st' := { st with type_function := tf }
  if tf = "linear" ∨ tf = "l" then
    (some ((a * x + b) % (st.prime : ℤ)), st')
  else if tf = "polynomial" ∨ tf = "p" then
    match st.coefficients.get? i with
    | none => (none, st')
    | some cs =>
        (some ((cs.enum.map (fun ec => ((ec.2 : ℤ)) * x ^ ec.1)).sum % (st.prime : ℤ)), st')
  else if tf = "universal" ∨ tf = "u" then
    let m : ℤ := 104729
    let h1 := (a * x + b) % (st.prime : ℤ)
    let h2 := (a * h1 + b) % m
    (some ((h1 + h2) % m), st')
  else (none, st')

/-- Embeds `min(signature[i], hash_value)` on entries initialised to
`np.inf` (`none` is the infinity sentinel). -/
def omin (s : Option ℤ) (v : ℤ) : Option ℤ :=
  match s with
  | none => some v
  | some w => some (min w v)

/-- Embeds numpy `.astype(int)` on one float signature entry: a finite
value is kept, the `np.inf` sentinel becomes the int64 value `-2^63`. -/
def astypeInt (s : Option ℤ) : ℤ :=
  match s with
  | none => -(2 ^ 63)
  | some v => v

/-- Embeds one iteration of the outer loop of `MinHash.create_signature`
(the inner loop over all hash-function indices for one `movie_id`),
threading the mutable object state through every `hash_function` call;
`none` in the first component models a propagating exception. -/
def create_signature_step (n : ℕ)
    (acc : Option (List (Option ℤ)) × MinHashState) (movie_id : ℤ) :
    Option (List (Option ℤ)) × MinHashState :=
  (List.range n).foldl
    (fun acc2 i =>
      match acc2.1 with
      | none => acc2
      | some sig =>
        let r := hash_function acc2.2 movie_id ((acc2.2.a.getD i 0 : ℕ) : ℤ)
            ((acc2.2.b.getD i 0 : ℕ) : ℤ) i
        match r.1 with
        | none => (none, r.2)
        | some hv => (some (sig.set i (omin (sig.getD i none) hv)), r.2))
    acc

/-- Embeds `MinHash.create_signature`: the signature array starts as
`np.full(n, np.inf)`, every item updates the per-function running minimum,
and the finished array is converted with `.astype(int)` entrywise.  The
item set is passed as a list enumerating its elements. -/
def create_signature (st : MinHashState) (movie_set : List ℤ) :
    Option (List ℤ) × MinHashState :=
  let n := st.n_hash_functions
  let res := movie_set.foldl (fun acc movie_id => create_signature_step n acc movie_id)
    (some (List.replicate n none), st)
  ((res.1).map (fun sig => sig.map astypeInt), res.2)

/-- Embeds `MinHash.jaccard_similarity`: numpy counts position-wise
equalities and divides by `self.n_hash_functions`.  A shape mismatch is a
numpy broadcasting error (`none`) unless one operand has length 1, which
numpy broadcasts against the other. -/
def jaccard_similarity (st : MinHashState) (signature1 signature2 : List ℤ) :
    Option ℚ :=
  if signature1.length = signature2.length then
    some ((((signature1.zip signature2).countP (fun q => q.1 == q.2) : ℕ) : ℚ) /
      (st.n_hash_functions : ℚ))
  else if signature1.length = 1 then
    some (((signature2.countP (fun v => v == signature1.getD 0 0) : ℕ) : ℚ) /
      (st.n_hash_functions : ℚ))
  else if signature2.length = 1 then
    some (((signature1.countP (fun v => v == signature2.getD 0 0) : ℕ) : ℚ) /
      (st.n_hash_functions : ℚ))
  else none

/-- Embeds `exact_jaccard_similarity` (`src/libs/minhash_similarity.py`):
cardinality of the set intersection over the cardinality of the union; the
Python division raises exactly when the union is empty (`none`). -/
def exact_jaccard_similarity (sig1 sig2 : Finset ℤ) : Option ℚ :=
  let intersection := (sig1 ∩ sig2).card
  let union := (sig1 ∪ sig2).card
  if union = 0 then none else some ((intersection : ℚ) / (union : ℚ))

/-- Embeds the collision-probability curve of `plot_probability_curve`
(`src/libs/LSH.py`): `r = n // b` and `1 - (1 - s^r)^b`, over `ℚ`. -/
def collision_probability (similarity : ℚ) (n b : ℕ) : ℚ :=
  1 - (1 - similarity ^ (n / b)) ^ b

/-- Embeds `LSH.create_bucket_hash`: fold of the band values with
multiplier 31 modulo `2^63 - 1`, seeded with the band index and reduced to
a 6-digit code.  The formatted string `LSH-NNNNNN` is injective in the
code (the code is always in `[0, 10^6)`), so the code itself serves as the
bucket key. -/
def create_bucket_hash (band_idx : ℤ) (band_signature : List ℤ) : ℤ :=
  (band_signature.foldl (fun hash_code v => (hash_code * 31 + v) % (2 ^ 63 - 1))
    band_idx) % 1000000

/-- Embeds one iteration of the band loop of `LSH.build_buckets`: slice the
signature, derive the bucket key, append the user id to that bucket.  The
bucket dictionary is modelled as a function from key to user list; a key
absent from the dictionary maps to `[]` (exactly how `query` treats it). -/
def add_band (rows_per_band : ℕ) (entry : ℤ × List ℤ) (buckets : ℤ → List ℤ)
    (band_idx : ℕ) : ℤ → List ℤ :=
  let start := band_idx * rows_per_band
  let band_signature := (entry.2.drop start).take rows_per_band
  let bucket_key := create_bucket_hash (band_idx : ℤ) band_signature
  fun k => if k = bucket_key then buckets k ++ [entry.1] else buckets k

/-- Embeds `LSH.build_buckets`: the bucket dictionary is reset and then
every user id is appended to the bucket of every band slice of its
signature.  The signature store is passed as a list of
`(user_id, signature)` pairs in iteration order. -/
def build_buckets (num_bands rows_per_band : ℕ)
    (signatures : List (ℤ × List ℤ)) : ℤ → List ℤ :=
  signatures.foldl
    (fun buckets entry => (List.range num_bands).foldl (add_band rows_per_band entry) buckets)
    (fun _ => [])

/-- Embeds `LSH.query`: union over all bands of the users in the matching
bucket, then the querying user id is discarded; the Python `set` of
candidates is modelled as a `Finset`. -/
def lsh_query (num_bands rows_per_band : ℕ) (buckets : ℤ → List ℤ)
    (query_signature : List ℤ) (query_user_id : ℤ) : Finset ℤ :=
  ((List.range num_bands).foldl
    (fun candidates band_idx =>
      let start_index := band_idx * rows_per_band
      let band_signature := (query_signature.drop start_index).take rows_per_band
      let bucket_key := create_bucket_hash (band_idx : ℤ) band_signature
      candidates ∪ (buckets bucket_key).toFinset)
    ∅) \ {query_user_id}

/-- Embeds `min` on an `Option ℕ` running minimum (`np.minimum` against the
`np.inf` initialisation in `generate_minhash_signatures`). -/
def ominN (s : Option ℕ) (v : ℕ) : Option ℕ :=
  match s with
  | none => some v
  | some w => some (min w v)

/-- Embeds one iteration of the row loop of `generate_minhash_signatures`
(`src/libs/LSH.py`): all hash functions are applied to the row index once
and every column whose membership entry is 1 takes a running minimum.  The
inner Python loop over columns updates each column independently, which is
written here as the simultaneous column update it performs. -/
def gen_row_update (characteristic_matrix : ℕ → ℕ → ℕ) (n_users : ℕ)
    (hash_params : List (ℕ × ℕ)) (mod_prime : ℕ)
    (signature_matrix : ℕ → ℕ → Option ℕ) (row : ℕ) : ℕ → ℕ → Option ℕ :=
  let hashes := hash_params.map (fun ab => (ab.1 * row + ab.2) % mod_prime)
  fun i col =>
    if col < n_users ∧ characteristic_matrix row col = 1 ∧ i < hashes.length then
      ominN (signature_matrix i col) (hashes.getD i 0)
    else signature_matrix i col

/-- Embeds `generate_minhash_signatures` (`src/libs/LSH.py`): the signature
matrix starts at `np.inf` everywhere (`none`) and every item row folds its
hash values into the columns with membership 1.  The internally drawn
`hash_params` (the `np.random.randint` pairs) and the `next_prime` modulus
are supplied as parameters; the function returns the matrix as a function
of (hash index, column). -/
def generate_minhash_signatures (characteristic_matrix : ℕ → ℕ → ℕ)
    (n_movies n_users : ℕ) (hash_params : List (ℕ × ℕ)) (mod_prime : ℕ) :
    ℕ → ℕ → Option ℕ :=
  (List.range n_movies).foldl
    (gen_row_update characteristic_matrix n_users hash_params mod_prime)
    (fun _ _ => none)

/-- Concrete validly-constructed `MinHash` state with two linear hash
functions, used by concrete evaluations below. -/
def stDemo : MinHashState :=
  { n_hash_functions := 2
    prime := 10513
    type_function := "linear"
    a := [1, 1]
    b := [0, 0]
    coefficients := [[1, 1, 1], [1, 1, 1]] }

/-- Concrete validly-constructed `MinHash` state with a single linear hash
function over the modulus 2, matching the hash family `[(1, 0)]`. -/
def stC4 : MinHashState :=
  { n_hash_functions := 1
    prime := 2
    type_function := "linear"
    a := [1]
    b := [0]
    coefficients := [[1, 1, 1]] }

/-- C9: with `r = n_hash_functions // num_bands`, the collision-probability
function `1 - (1 - s^r)^num_bands` equals 1 at `s = 1` for any positive
number of bands, equals 0 at `s = 0` whenever `r ≥ 1`, and is
non-decreasing in `s` on `[0, 1]` for fixed `n` and `b`. -/
theorem collision_probability_sanity :
    (∀ n b : ℕ, 1 ≤ b → collision_probability 1 n b = 1) ∧
    (∀ n b : ℕ, 1 ≤ n / b → collision_probability 0 n b = 0) ∧
    (∀ (n b : ℕ) (s1 s2 : ℚ), 0 ≤ s1 → s1 ≤ s2 → s2 ≤ 1 →
      collision_probability s1 n b ≤ collision_probability s2 n b) := by
  refine ⟨?_, ?_, ?_⟩
  · intro n b hb
    simp [collision_probability, zero_pow (by omega : b ≠ 0)]
  · intro n b hr
    simp [collision_probability, zero_pow (by omega : n / b ≠ 0)]
  · intro n b s1 s2 h0 h12 h21
    have h02 : (0 : ℚ) ≤ s2 := le_trans h0 h12
    have hp : s1 ^ (n / b) ≤ s2 ^ (n / b) := pow_le_pow_left₀ h0 h12 _
    have hp1 : s2 ^ (n / b) ≤ 1 := pow_le_one₀ h02 h21
    have h1 : (0 : ℚ) ≤ 1 - s2 ^ (n / b) := by linarith
    have h2 : 1 - s2 ^ (n / b) ≤ 1 - s1 ^ (n / b) := by linarith
    have h3 : (1 - s2 ^ (n / b)) ^ b ≤ (1 - s1 ^ (n / b)) ^ b :=
      pow_le_pow_left₀ h1 h2 b
    unfold collision_probability
    linarith

/-- Witness for C9 at `n = 100`, `b = 20`, comparing `s = 0` and `s = 1/2`. -/
theorem collision_probability_sanity_witness :
    collision_probability 1 100 20 = 1 ∧ collision_probability 0 100 20 = 0 ∧
    collision_probability 0 100 20 ≤ collision_probability (1 / 2) 100 20 :=
  ⟨collision_probability_sanity.1 100 20 (by norm_num),
   collision_probability_sanity.2.1 100 20 (by norm_num),
   collision_probability_sanity.2.2 100 20 0 (1 / 2) (by norm_num) (by norm_num)
     (by norm_num)⟩

/-- C5 counterexample: two equal-length signatures of length 1 under a
family with 2 hash functions; the fraction of equal positions is 1 but the
code returns `1 / n_hash_functions = 1/2`, so the estimate is not the
fraction of equal positions. -/
theorem jaccard_similarity_counterexample :
    jaccard_similarity stDemo [7] [7] ≠
      some (((([(7 : ℤ)].zip [7]).countP (fun q => q.1 == q.2) : ℕ) : ℚ) /
        (([(7 : ℤ)].length : ℕ) : ℚ)) := by
  simp only [jaccard_similarity, stDemo]
  norm_num

/-- C5 (amended): the estimate divides the number of position-wise matches
by `n_hash_functions`, so it is the fraction of equal positions exactly
when the common signature length equals `n_hash_functions`; there is no
`LengthMismatch` check — incompatible lengths surface as a numpy
broadcasting failure (and a length-1 operand is broadcast instead). -/
theorem jaccard_similarity_fraction (st : MinHashState) (s1 s2 : List ℤ)
    (h1 : s1.length = st.n_hash_functions) (h2 : s2.length = st.n_hash_functions) :
    jaccard_similarity st s1 s2 =
      some ((((s1.zip s2).countP (fun q => q.1 == q.2) : ℕ) : ℚ) / ((s1.length : ℕ) : ℚ)) ∧
    ∀ t1 t2 : List ℤ, t1.length ≠ t2.length → t1.length ≠ 1 → t2.length ≠ 1 →
      jaccard_similarity st t1 t2 = none := by
  constructor
  · rw [jaccard_similarity, if_pos (h1.trans h2.symm), h1]
  · intro t1 t2 hne hn1 hn2
    rw [jaccard_similarity, if_neg hne, if_neg hn1, if_neg hn2]

/-- Witness for C5 (amended) on two concrete length-2 signatures. -/
theorem jaccard_similarity_fraction_witness :
    jaccard_similarity stDemo [3, 4] [3, 5] =
      some (((([(3 : ℤ), 4].zip [3, 5]).countP (fun q => q.1 == q.2) : ℕ) : ℚ) /
        (([(3 : ℤ), 4].length : ℕ) : ℚ)) ∧
    jaccard_similarity stDemo [1, 2, 3] [1, 2] = none :=
  ⟨(jaccard_similarity_fraction stDemo [3, 4] [3, 5] (by decide) (by decide)).1,
   (jaccard_similarity_fraction stDemo [3, 4] [3, 5] (by decide) (by decide)).2
     [1, 2, 3] [1, 2] (by decide) (by decide) (by decide)⟩

/-- C6: the exact Jaccard operation returns
`|intersection| / |union|` whenever the two sets are not both empty, and
fails when both are empty (the Python division raises on `0/0`; failure is
modelled as `none`). -/
theorem exact_jaccard_spec (set_a set_b : Finset ℤ) :
    (¬(set_a = ∅ ∧ set_b = ∅) →
      exact_jaccard_similarity set_a set_b =
        some (((set_a ∩ set_b).card : ℚ) / ((set_a ∪ set_b).card : ℚ))) ∧
    (set_a = ∅ → set_b = ∅ → exact_jaccard_similarity set_a set_b = none) := by
  constructor
  · intro h
    have hu : (set_a ∪ set_b).card ≠ 0 := by
      intro hc
      rcases Finset.card_eq_zero.mp hc with hc
      rcases Finset.union_eq_empty.mp hc with ⟨ha, hb⟩
      exact h ⟨ha, hb⟩
    rw [exact_jaccard_similarity]
    simp only [if_neg hu]
  · intro ha hb
    rw [exact_jaccard_similarity]
    simp [ha, hb]

/-- Witness for C6: a non-degenerate pair of sets and the empty pair. -/
theorem exact_jaccard_spec_witness :
    exact_jaccard_similarity {1} {1, 2} =
      some (((({1} : Finset ℤ) ∩ {1, 2}).card : ℚ) / ((({1} : Finset ℤ) ∪ {1, 2}).card : ℚ)) ∧
    exact_jaccard_similarity (∅ : Finset ℤ) ∅ = none :=
  ⟨(exact_jaccard_spec {1} {1, 2}).1 (by decide),
   (exact_jaccard_spec ∅ ∅).2 rfl rfl⟩

/-- Appending a user to some bucket preserves membership in every bucket. -/
theorem mem_add_band (rpb : ℕ) (e : ℤ × List ℤ) (band_idx : ℕ)
    {u k : ℤ} {buckets : ℤ → List ℤ} (h : u ∈ buckets k) :
    u ∈ add_band rpb e buckets band_idx k := by
  simp only [add_band]
  split
  · exact List.mem_append_left _ h
  · exact h

/-- Processing one band places the entry's user id in the bucket keyed by
that band's slice of its signature. -/
theorem self_mem_add_band (rpb : ℕ) (e : ℤ × List ℤ) (band_idx : ℕ)
    (buckets : ℤ → List ℤ) :
    e.1 ∈ add_band rpb e buckets band_idx
      (create_bucket_hash (band_idx : ℤ) ((e.2.drop (band_idx * rpb)).take rpb)) := by
  simp [add_band]

/-- Folding the band updates of one entry preserves bucket membership. -/
theorem mem_foldl_add_band (rpb : ℕ) (e : ℤ × List ℤ) (l : List ℕ)
    {u k : ℤ} {buckets : ℤ → List ℤ} (h : u ∈ buckets k) :
    u ∈ (l.foldl (add_band rpb e) buckets) k := by
  induction l generalizing buckets with
  | nil => exact h
  | cons b l ih => exact ih (mem_add_band rpb e b h)

/-- After processing all bands of one entry, the entry's user id sits in
the bucket of each of its band slices. -/
theorem mem_range_foldl_add_band (rpb : ℕ) (e : ℤ × List ℤ) {nb b : ℕ}
    (hb : b < nb) (buckets : ℤ → List ℤ) :
    e.1 ∈ ((List.range nb).foldl (add_band rpb e) buckets)
      (create_bucket_hash (b : ℤ) ((e.2.drop (b * rpb)).take rpb)) := by
  induction nb with
  | zero => omega
  | succ m ih =>
    rw [List.range_succ, List.foldl_append, List.foldl_cons, List.foldl_nil]
    by_cases hbm : b < m
    · exact mem_add_band rpb e m (ih hbm)
    · have hbe : b = m := by omega
      subst hbe
      exact self_mem_add_band rpb e b _

/-- Folding further store entries preserves bucket membership. -/
theorem mem_foldl_entries (nb rpb : ℕ) (l : List (ℤ × List ℤ))
    {u k : ℤ} {buckets : ℤ → List ℤ} (h : u ∈ buckets k) :
    u ∈ (l.foldl (fun bs e => (List.range nb).foldl (add_band rpb e) bs) buckets) k := by
  induction l generalizing buckets with
  | nil => exact h
  | cons e l ih => exact ih (mem_foldl_add_band rpb e _ h)

/-- Every stored entry ends up in the bucket keyed by each of its band
slices after `build_buckets`. -/
theorem mem_build_buckets {nb rpb : ℕ} {store : List (ℤ × List ℤ)}
    {u : ℤ} {sig : List ℤ} (hmem : (u, sig) ∈ store) {b : ℕ} (hb : b < nb) :
    u ∈ build_buckets nb rpb store
      (create_bucket_hash (b : ℤ) ((sig.drop (b * rpb)).take rpb)) := by
  unfold build_buckets
  have main : ∀ (l : List (ℤ × List ℤ)) (init : ℤ → List ℤ), (u, sig) ∈ l →
      u ∈ (l.foldl (fun bs e => (List.range nb).foldl (add_band rpb e) bs) init)
        (create_bucket_hash (b : ℤ) ((sig.drop (b * rpb)).take rpb)) := by
    intro l
    induction l with
    | nil => intro init h; cases h
    | cons e l ih =>
      intro init h
      rcases List.mem_cons.mp h with he | hl
      · rw [List.foldl_cons]
        apply mem_foldl_entries
        subst he
        exact mem_range_foldl_add_band rpb (u, sig) hb init
      · rw [List.foldl_cons]
        exact ih _ hl
  exact main store _ hmem

/-- C1 (amended): if two stored entities have pointwise-identical slices at
a band, both land in the bucket keyed by that band and slice (the key
derivation is deterministic); the converse direction of the claim is
refuted separately, since the modular fold can collide on distinct
slices. -/
theorem c1_matching_slices_share_bucket (nb rpb : ℕ) (store : List (ℤ × List ℤ))
    (u1 u2 : ℤ) (s1 s2 : List ℤ) (h1 : (u1, s1) ∈ store) (h2 : (u2, s2) ∈ store)
    (band_idx : ℕ) (hb : band_idx < nb)
    (hslice : (s1.drop (band_idx * rpb)).take rpb = (s2.drop (band_idx * rpb)).take rpb) :
    u1 ∈ build_buckets nb rpb store
      (create_bucket_hash (band_idx : ℤ) ((s1.drop (band_idx * rpb)).take rpb)) ∧
    u2 ∈ build_buckets nb rpb store
      (create_bucket_hash (band_idx : ℤ) ((s1.drop (band_idx * rpb)).take rpb)) :=
  ⟨mem_build_buckets h1 hb, by rw [hslice]; exact mem_build_buckets h2 hb⟩

/-- Witness for C1 (amended): two users with the same one-band signature
share the bucket of that band. -/
theorem c1_matching_slices_share_bucket_witness :
    (1 : ℤ) ∈ build_buckets 1 1 [(1, [5]), (2, [5])]
      (create_bucket_hash ((0 : ℕ) : ℤ) (([(5 : ℤ)].drop (0 * 1)).take 1)) ∧
    (2 : ℤ) ∈ build_buckets 1 1 [(1, [5]), (2, [5])]
      (create_bucket_hash ((0 : ℕ) : ℤ) (([(5 : ℤ)].drop (0 * 1)).take 1)) :=
  c1_matching_slices_share_bucket 1 1 [(1, [5]), (2, [5])] 1 2 [5] [5]
    (by decide) (by decide) 0 (by decide) rfl

/-- C1 counterexample: the band slices `[0]` and `[1000000]` differ (so the
two signatures differ in every band's slice), yet both users are placed in
the same bucket, because the key fold reduces modulo `10^6`: the claimed
"only if" direction, and the claimed disjointness, fail. -/
theorem c1_counterexample :
    ([(0 : ℤ)] ≠ [1000000]) ∧
    build_buckets 1 1 [(1, [0]), (2, [1000000])] (create_bucket_hash 0 [0]) = [1, 2] := by
  constructor
  · decide
  · decide

/-- A band slice of a signature only reads the first
`num_bands * rows_per_band` entries. -/
theorem slice_take (nb rpb b : ℕ) (hb : b < nb) (s : List ℤ) :
    ((s.take (nb * rpb)).drop (b * rpb)).take rpb = (s.drop (b * rpb)).take rpb := by
  rw [List.drop_take, List.take_take]
  congr 1
  have h1 : (b + 1) * rpb ≤ nb * rpb := Nat.mul_le_mul_right rpb (by omega)
  rw [Nat.succ_mul] at h1
  omega

/-- Band processing of an entry agrees with band processing of the entry
truncated to the banded prefix of its signature, for every in-range band. -/
theorem add_band_take (nb rpb b : ℕ) (hb : b < nb) (e : ℤ × List ℤ)
    (buckets : ℤ → List ℤ) :
    add_band rpb (e.1, e.2.take (nb * rpb)) buckets b = add_band rpb e buckets b := by
  unfold add_band
  simp only
  rw [slice_take nb rpb b hb e.2]

/-- Folding the in-range bands of an entry agrees with folding the bands of
the truncated entry. -/
theorem foldl_add_band_congr (rpb nb : ℕ) (e : ℤ × List ℤ) (l : List ℕ)
    (hl : ∀ b ∈ l, b < nb) (buckets : ℤ → List ℤ) :
    l.foldl (add_band rpb (e.1, e.2.take (nb * rpb))) buckets =
      l.foldl (add_band rpb e) buckets := by
  induction l generalizing buckets with
  | nil => rfl
  | cons b l ih =>
    rw [List.foldl_cons, List.foldl_cons,
      add_band_take nb rpb b (hl b (List.mem_cons_self b l)) e buckets]
    exact ih (fun x hx => hl x (List.mem_cons_of_mem b hx)) _

/-- Helper for C3: `build_buckets` never validates the band layout; its
result only depends on the first `num_bands * rows_per_band` entries of
every signature, so a non-matching signature length is silently
truncated (or bands are silently shortened) instead of failing. -/
theorem build_buckets_take_eq (nb rpb : ℕ) (store : List (ℤ × List ℤ)) :
    build_buckets nb rpb store =
      build_buckets nb rpb (store.map (fun e => (e.1, e.2.take (nb * rpb)))) := by
  unfold build_buckets
  rw [List.foldl_map]
  have hstep : (fun (bs : ℤ → List ℤ) (e : ℤ × List ℤ) =>
        (List.range nb).foldl (add_band rpb ((fun e => (e.1, e.2.take (nb * rpb))) e)) bs) =
      fun bs e => (List.range nb).foldl (add_band rpb e) bs := by
    funext bs e
    exact foldl_add_band_congr rpb nb e (List.range nb)
      (fun x hx => List.mem_range.mp hx) bs
  rw [hstep]

/-- C3 (amended): the bucket-build operation performs no layout
validation: it never fails with `BandLayoutMismatch`, and its output
depends only on the first `num_bands * rows_per_band` entries of every
stored signature — a signature whose length differs from
`num_bands * rows_per_band` is silently truncated (or its bands silently
shortened). -/
theorem build_buckets_silent_truncation (nb rpb : ℕ) (store : List (ℤ × List ℤ)) :
    build_buckets nb rpb store =
      build_buckets nb rpb (store.map (fun e => (e.1, e.2.take (nb * rpb)))) :=
  build_buckets_take_eq nb rpb store

/-- Concrete signature of length 100 (the values 0..99). -/
def sig100 : List ℤ := (List.range 100).map (fun i => (i : ℤ))

/-- Concrete signature of length 100 agreeing with `sig100` on the first
98 entries and differing on the last two. -/
def sig100x : List ℤ := sig100.take 98 ++ [777777, 555555]

/-- C3 counterexample: building with `num_bands = 7`, `rows_per_band = 14`
(so `7 * 14 = 98 ≠ 100`) over a signature of length 100 does not fail:
it returns an ordinary bucket index that ignores the last two signature
entries entirely, i.e. the claimed `BandLayoutMismatch` failure does not
happen and the signature is silently truncated. -/
theorem c3_counterexample :
    sig100 ≠ sig100x ∧ sig100.length = 100 ∧ (7 * 14 : ℕ) ≠ 100 ∧
    build_buckets 7 14 [(1, sig100)] = build_buckets 7 14 [(1, sig100x)] := by
  refine ⟨by decide, by decide, by decide, ?_⟩
  have h1 := build_buckets_take_eq 7 14 [(1, sig100)]
  have h2 := build_buckets_take_eq 7 14 [(1, sig100x)]
  rw [h1, h2]
  have : sig100.take (7 * 14) = sig100x.take (7 * 14) := by decide
  simp only [List.map_cons, List.map_nil, this]

/-- Membership in a fold of unions of per-band bucket contents. -/
theorem mem_foldl_union (f : ℕ → Finset ℤ) (l : List ℕ) (init : Finset ℤ) (x : ℤ) :
    x ∈ l.foldl (fun acc b => acc ∪ f b) init ↔ x ∈ init ∨ ∃ b ∈ l, x ∈ f b := by
  induction l generalizing init with
  | nil => simp
  | cons b l ih =>
    rw [List.foldl_cons, ih]
    simp [Finset.mem_union, or_assoc]

/-- Characterization of `lsh_query`: a candidate is any user found in the
bucket matching at least one band of the query signature, excluding the
querying user. -/
theorem mem_lsh_query (nb rpb : ℕ) (buckets : ℤ → List ℤ) (qsig : List ℤ)
    (qid x : ℤ) :
    x ∈ lsh_query nb rpb buckets qsig qid ↔
      x ≠ qid ∧ ∃ b, b < nb ∧
        x ∈ buckets (create_bucket_hash (b : ℤ) ((qsig.drop (b * rpb)).take rpb)) := by
  unfold lsh_query
  rw [Finset.mem_sdiff, Finset.mem_singleton,
    mem_foldl_union (fun b =>
      (buckets (create_bucket_hash (b : ℤ) ((qsig.drop (b * rpb)).take rpb))).toFinset)]
  simp only [Finset.not_mem_empty, false_or, List.mem_range, List.mem_toFinset]
  constructor
  · rintro ⟨⟨b, hb, hx⟩, hne⟩
    exact ⟨hne, b, hb, hx⟩
  · rintro ⟨hne, b, hb, hx⟩
    exact ⟨⟨b, hb, hx⟩, hne⟩

/-- C7: two distinct stored entities with pointwise-identical full
signatures are returned as candidates of each other by `query`, and in
general the query result is exactly the set union over all bands of the
entities in each band's matching bucket with the excluded id removed
(deduplicated, since the result is a set). -/
theorem query_identical_signatures (nb rpb : ℕ) (store : List (ℤ × List ℤ))
    (u1 u2 : ℤ) (sig : List ℤ) (h1 : (u1, sig) ∈ store) (h2 : (u2, sig) ∈ store)
    (hne : u1 ≠ u2) (hnb : 0 < nb) :
    u2 ∈ lsh_query nb rpb (build_buckets nb rpb store) sig u1 ∧
    u1 ∈ lsh_query nb rpb (build_buckets nb rpb store) sig u2 ∧
    ∀ (buckets : ℤ → List ℤ) (qsig : List ℤ) (qid x : ℤ),
      x ∈ lsh_query nb rpb buckets qsig qid ↔
        x ≠ qid ∧ ∃ b, b < nb ∧
          x ∈ buckets (create_bucket_hash (b : ℤ) ((qsig.drop (b * rpb)).take rpb)) := by
  refine ⟨?_, ?_, fun buckets qsig qid x => mem_lsh_query nb rpb buckets qsig qid x⟩
  · rw [mem_lsh_query]
    exact ⟨Ne.symm hne, 0, hnb, mem_build_buckets h2 hnb⟩
  · rw [mem_lsh_query]
    exact ⟨hne, 0, hnb, mem_build_buckets h1 hnb⟩

/-- Witness for C7: two users with the same single-band signature are
candidates of each other. -/
theorem query_identical_signatures_witness :
    (2 : ℤ) ∈ lsh_query 1 1 (build_buckets 1 1 [(1, [5]), (2, [5])]) [5] 1 ∧
    (1 : ℤ) ∈ lsh_query 1 1 (build_buckets 1 1 [(1, [5]), (2, [5])]) [5] 2 :=
  ⟨(query_identical_signatures 1 1 [(1, [5]), (2, [5])] 1 2 [5]
      (by decide) (by decide) (by decide) (by decide)).1,
   (query_identical_signatures 1 1 [(1, [5]), (2, [5])] 1 2 [5]
      (by decide) (by decide) (by decide) (by decide)).2.1⟩

/-- Hash-kind tags accepted by the constructor's membership check. -/
def validType (st : MinHashState) : Prop :=
  st.type_function = "linear" ∨ st.type_function = "universal" ∨
    st.type_function = "polynomial"

/-- Lower-casing the literal tag `linear` is the identity. -/
theorem pyLower_lin : pyLower ("linear") = "linear" := by decide

/-- Lower-casing the literal tag `universal` is the identity. -/
theorem pyLower_univ : pyLower ("universal") = "universal" := by decide

/-- Lower-casing the literal tag `polynomial` is the identity. -/
theorem pyLower_poly : pyLower ("polynomial") = "polynomial" := by decide

/-- The constructor's accepted tags are already lower-case, so the
re-assignment in `hash_function` is the identity on them. -/
theorem pyLower_valid {st : MinHashState} (h : validType st) :
    pyLower st.type_function = st.type_function := by
  rcases h with h | h | h <;> rw [h]
  · exact pyLower_lin
  · exact pyLower_univ
  · exact pyLower_poly

/-- Inversion of a successful `MinHash` construction. -/
theorem mkMinHash_some {n p : ℕ} {tf : String} {fa fb : ℕ → ℕ} {fc : ℕ → ℕ → ℕ}
    {st : MinHashState} (h : mkMinHash n p tf fa fb fc = some st) :
    st.n_hash_functions = n ∧ 0 < n ∧ st.prime = p ∧ st.type_function = tf ∧
    validType st ∧ st.a.length = st.n_hash_functions ∧
    st.b.length = st.n_hash_functions ∧
    st.coefficients = (List.range st.n_hash_functions).map
      (fun i => (List.range 3).map (fc i)) := by
  unfold mkMinHash at h
  split_ifs at h with h1 h2
  have h2x : tf = "linear" ∨ tf = "universal" ∨ tf = "polynomial" := by
    by_contra hcon
    push_neg at hcon
    exact h2 ⟨hcon.1, hcon.2.1, hcon.2.2⟩
  have hrec := Option.some.inj h
  subst hrec
  refine ⟨rfl, by omega, rfl, rfl, ?_, by simp, by simp, rfl⟩
  simpa [validType] using h2x

/-- The state returned by `hash_function` is the input state with its
hash-kind tag lower-cased, in every dispatch branch. -/
theorem hash_function_snd (st : MinHashState) (x a b : ℤ) (i : ℕ) :
    (hash_function st x a b i).2 =
      { st with type_function := pyLower st.type_function } := by
  simp only [hash_function]
  split_ifs <;> try rfl
  cases st.coefficients.get? i <;> rfl

/-- For a validly-constructed state the tag is already lower-case, so
`hash_function` leaves the object state unchanged: its result is a pure
function of the key, the coefficients and the index. -/
theorem hash_function_state {st : MinHashState} (h : validType st)
    (x a b : ℤ) (i : ℕ) : (hash_function st x a b i).2 = st := by
  rw [hash_function_snd, pyLower_valid h]

/-- Evaluation of `hash_function` in the `linear` branch. -/
theorem hash_function_eq_linear {st : MinHashState}
    (h : st.type_function = "linear") (x a b : ℤ) (i : ℕ) :
    hash_function st x a b i = (some ((a * x + b) % (st.prime : ℤ)), st) := by
  simp only [hash_function]
  rw [h, pyLower_lin, if_pos (Or.inl rfl), ← h]

/-- Evaluation of `hash_function` in the `universal` branch. -/
theorem hash_function_eq_universal {st : MinHashState}
    (h : st.type_function = "universal") (x a b : ℤ) (i : ℕ) :
    hash_function st x a b i =
      (some ((((a * x + b) % (st.prime : ℤ)) +
        ((a * ((a * x + b) % (st.prime : ℤ)) + b) % 104729)) % 104729), st) := by
  simp only [hash_function]
  rw [h, pyLower_univ, if_neg (by decide), if_neg (by decide),
    if_pos (Or.inl rfl), ← h]

/-- Evaluation of `hash_function` in the `polynomial` branch for an
in-range coefficient index. -/
theorem hash_function_eq_polynomial {st : MinHashState}
    (h : st.type_function = "polynomial") {i : ℕ}
    (hi : i < st.coefficients.length) (x a b : ℤ) :
    hash_function st x a b i =
      (some ((((st.coefficients.getD i []).enum.map
        (fun ec => ((ec.2 : ℤ)) * x ^ ec.1)).sum) % (st.prime : ℤ)), st) := by
  simp only [hash_function]
  rw [h, pyLower_poly, if_neg (by decide), if_pos (Or.inl rfl)]
  rw [List.get?_eq_get hi]
  have hgd : st.coefficients.getD i [] = st.coefficients.get ⟨i, hi⟩ := by
    rw [List.getD_eq_getElem _ _ hi, List.get_eq_getElem]
  rw [hgd, ← h]

/-- Value computed by `hash_function` for hash index `i` when called, as
`create_signature` does, with the state's own drawn coefficients. -/
def hashValue (st : MinHashState) (x : ℤ) (i : ℕ) : ℤ :=
  if st.type_function = "linear" then
    (((st.a.getD i 0 : ℕ) : ℤ) * x + ((st.b.getD i 0 : ℕ) : ℤ)) % (st.prime : ℤ)
  else if st.type_function = "polynomial" then
    ((st.coefficients.getD i []).enum.map
      (fun ec => ((ec.2 : ℤ)) * x ^ ec.1)).sum % (st.prime : ℤ)
  else
    ((((((st.a.getD i 0 : ℕ) : ℤ) * x + ((st.b.getD i 0 : ℕ) : ℤ)) % (st.prime : ℤ)) +
      ((((st.a.getD i 0 : ℕ) : ℤ) *
        ((((st.a.getD i 0 : ℕ) : ℤ) * x + ((st.b.getD i 0 : ℕ) : ℤ)) % (st.prime : ℤ)) +
        ((st.b.getD i 0 : ℕ) : ℤ)) % 104729)) % 104729)

/-- On a validly-constructed state, `hash_function` applied to the state's
own coefficients returns `hashValue` and leaves the state unchanged. -/
theorem hash_function_valid_eval {st : MinHashState} (hd : validType st)
    (hpoly : st.type_function = "polynomial" →
      st.coefficients.length = st.n_hash_functions)
    {i : ℕ} (hi : i < st.n_hash_functions) (x : ℤ) :
    hash_function st x ((st.a.getD i 0 : ℕ) : ℤ) ((st.b.getD i 0 : ℕ) : ℤ) i =
      (some (hashValue st x i), st) := by
  rcases hd with h | h | h
  · rw [hash_function_eq_linear h, hashValue, if_pos h]
  · rw [hash_function_eq_universal h, hashValue, if_neg (by rw [h]; decide),
      if_neg (by rw [h]; decide)]
  · rw [hash_function_eq_polynomial h (by rw [hpoly h]; exact hi), hashValue,
      if_neg (by rw [h]; decide), if_pos h]

/-- Reading an in-range position of a mapped range list. -/
theorem getD_map_range {α : Type} {n i : ℕ} (f : ℕ → α) (d : α) (h : i < n) :
    ((List.range n).map f).getD i d = f i := by
  rw [List.getD_eq_getElem _ _ (by simpa using h)]
  simp

/-- Reading a position of a list after a `set`, with default. -/
theorem getD_set_ite {α : Type} (l : List α) (i j : ℕ) (v d : α) :
    (l.set i v).getD j d = if i = j ∧ i < l.length then v else l.getD j d := by
  rw [List.getD_eq_getElem?_getD, List.getD_eq_getElem?_getD, List.getElem?_set]
  by_cases hij : i = j
  · subst hij
    by_cases hi : i < l.length
    · simp [hi]
    · rw [if_pos rfl, if_neg hi, if_neg (fun hc => hi hc.2),
        List.getElem?_eq_none (by omega : l.length ≤ i)]
  · simp [hij]

/-- One outer-loop iteration of `create_signature` on a validly-constructed
state: no exception is raised, the state is unchanged, and each in-range
entry takes the running minimum against `hashValue` of the new item. -/
theorem create_signature_step_some {st : MinHashState} (hd : validType st)
    (hpoly : st.type_function = "polynomial" →
      st.coefficients.length = st.n_hash_functions)
    (movie : ℤ) (sig : List (Option ℤ)) (hlen : sig.length = st.n_hash_functions) :
    create_signature_step st.n_hash_functions (some sig, st) movie =
      (some ((List.range st.n_hash_functions).map
        (fun i => omin (sig.getD i none) (hashValue st movie i))), st) := by
  have main : ∀ k, k ≤ st.n_hash_functions →
      ∃ s : List (Option ℤ),
        create_signature_step k (some sig, st) movie = (some s, st) ∧
        s.length = st.n_hash_functions ∧
        (∀ j, s.getD j none =
          if j < k then omin (sig.getD j none) (hashValue st movie j)
          else sig.getD j none) := by
    intro k
    induction k with
    | zero =>
      intro _
      exact ⟨sig, rfl, hlen, fun j => by simp⟩
    | succ k ih =>
      intro hk1
      obtain ⟨s, hfold, hslen, hsget⟩ := ih (by omega)
      have hkn : k < st.n_hash_functions := by omega
      refine ⟨s.set k (omin (s.getD k none) (hashValue st movie k)), ?_, ?_, ?_⟩
      · unfold create_signature_step at hfold ⊢
        rw [List.range_succ, List.foldl_append, hfold, List.foldl_cons,
          List.foldl_nil]
        simp only [hash_function_valid_eval hd hpoly hkn movie]
      · rw [List.length_set, hslen]
      · intro j
        rw [getD_set_ite]
        by_cases hjk : k = j
        · subst hjk
          rw [if_pos ⟨rfl, by omega⟩, if_pos (by omega), hsget k,
            if_neg (by omega)]
        · rw [if_neg (by simp [hjk]), hsget j]
          by_cases hj : j < k
          · rw [if_pos hj, if_pos (by omega)]
          · rw [if_neg hj, if_neg (by omega)]
  obtain ⟨s, hfold, hslen, hsget⟩ := main st.n_hash_functions le_rfl
  rw [hfold]
  have hs : s = (List.range st.n_hash_functions).map
      (fun i => omin (sig.getD i none) (hashValue st movie i)) := by
    apply List.ext_getElem
    · rw [hslen]; simp
    · intro j h1 h2
      have hj : j < st.n_hash_functions := by rwa [hslen] at h1
      have := hsget j
      rw [if_pos hj] at this
      rw [← List.getD_eq_getElem s none h1, this,
        ← getD_map_range (fun i => omin (sig.getD i none) (hashValue st movie i))
          none hj]
      rw [List.getD_eq_getElem _ _ h2]
  rw [hs]

/-- Per-index running minimum of `hashValue` over an item list (the value
`create_signature` computes for hash function `i` before the int cast). -/
def sigEntry (st : MinHashState) (movies : List ℤ) (i : ℕ) : Option ℤ :=
  movies.foldl (fun acc m => omin acc (hashValue st m i)) none

/-- Full evaluation of `create_signature` on a validly-constructed state:
no exception, state unchanged, and entry `i` is the int cast of the running
minimum of hash function `i` over the items. -/
theorem create_signature_eval {st : MinHashState} (hd : validType st)
    (hpoly : st.type_function = "polynomial" →
      st.coefficients.length = st.n_hash_functions) (movies : List ℤ) :
    create_signature st movies =
      (some ((List.range st.n_hash_functions).map
        (fun i => astypeInt (sigEntry st movies i))), st) := by
  have main : ∀ (rest pref : List ℤ),
      rest.foldl (fun acc movie_id =>
          create_signature_step st.n_hash_functions acc movie_id)
        (some ((List.range st.n_hash_functions).map (fun i => sigEntry st pref i)), st) =
      (some ((List.range st.n_hash_functions).map
        (fun i => sigEntry st (pref ++ rest) i)), st) := by
    intro rest
    induction rest with
    | nil =>
      intro pref
      simp
    | cons m rest ih =>
      intro pref
      rw [List.foldl_cons, create_signature_step_some hd hpoly m _ (by simp)]
      have hmap : (List.range st.n_hash_functions).map
          (fun i => omin (((List.range st.n_hash_functions).map
            (fun i2 => sigEntry st pref i2)).getD i none) (hashValue st m i)) =
          (List.range st.n_hash_functions).map
            (fun i => sigEntry st (pref ++ [m]) i) := by
        apply List.map_congr_left
        intro i hi
        have hilt : i < st.n_hash_functions := List.mem_range.mp hi
        rw [getD_map_range _ none hilt]
        show omin (sigEntry st pref i) (hashValue st m i) = sigEntry st (pref ++ [m]) i
        unfold sigEntry
        rw [List.foldl_append, List.foldl_cons, List.foldl_nil]
      rw [hmap]
      have happ := ih (pref ++ [m])
      rwa [List.append_assoc, List.singleton_append] at happ
  have hrep : (List.replicate st.n_hash_functions (none : Option ℤ)) =
      (List.range st.n_hash_functions).map (fun i => sigEntry st [] i) := by
    apply List.ext_getElem
    · simp
    · intro j h1 h2
      simp [sigEntry]
  have h0 := main movies []
  rw [List.nil_append] at h0
  simp only [create_signature]
  rw [hrep, h0]
  simp [List.map_map, Function.comp]

/-- The running minimum is right-commutative: folding two items in either
order yields the same entry. -/
theorem omin_right_comm (a : Option ℤ) (u v : ℤ) :
    omin (omin a u) v = omin (omin a v) u := by
  cases a <;> simp [omin, min_comm, min_left_comm, min_right_comm]

/-- The per-index running minimum is invariant under permutations of the
item enumeration. -/
theorem sigEntry_perm {st : MinHashState} {m1 m2 : List ℤ}
    (hperm : m1.Perm m2) (i : ℕ) : sigEntry st m1 i = sigEntry st m2 i := by
  unfold sigEntry
  have main : ∀ (l1 l2 : List ℤ), l1.Perm l2 → ∀ acc : Option ℤ,
      l1.foldl (fun acc2 m => omin acc2 (hashValue st m i)) acc =
      l2.foldl (fun acc2 m => omin acc2 (hashValue st m i)) acc := by
    intro l1 l2 hp
    induction hp with
    | nil => intro acc; rfl
    | cons x hp2 ih =>
      intro acc
      rw [List.foldl_cons, List.foldl_cons]
      exact ih _
    | swap x y l =>
      intro acc
      rw [List.foldl_cons, List.foldl_cons, List.foldl_cons, List.foldl_cons,
        omin_right_comm]
    | trans hp1 hp2 ih1 ih2 =>
      intro acc
      rw [ih1, ih2]
  exact main m1 m2 hperm none

/-- C8: for a successfully constructed instance, hash evaluation is a pure
function of (key, index): the method's state re-assignment is the identity,
so repeated calls see the same state and return the same value; and the
computed signature is invariant under permutation of the item enumeration,
i.e. independent of the iteration order over the set. -/
theorem hash_deterministic_signature_order_independent
    (n p : ℕ) (tf : String) (fa fb : ℕ → ℕ) (fc : ℕ → ℕ → ℕ)
    (st : MinHashState) (h : mkMinHash n p tf fa fb fc = some st) :
    (∀ (x a b : ℤ) (i : ℕ), (hash_function st x a b i).2 = st) ∧
    (∀ movies1 movies2 : List ℤ, movies1.Perm movies2 →
      create_signature st movies1 = create_signature st movies2) := by
  obtain ⟨hn, hpos, hp, htf, hd, ha, hb, hc⟩ := mkMinHash_some h
  have hpoly : st.type_function = "polynomial" →
      st.coefficients.length = st.n_hash_functions := by
    intro _
    rw [hc]
    simp
  refine ⟨fun x a b i => hash_function_state hd x a b i, ?_⟩
  intro m1 m2 hperm
  rw [create_signature_eval hd hpoly, create_signature_eval hd hpoly]
  have hmap : (List.range st.n_hash_functions).map
      (fun i => astypeInt (sigEntry st m1 i)) =
      (List.range st.n_hash_functions).map
        (fun i => astypeInt (sigEntry st m2 i)) := by
    apply List.map_congr_left
    intro i _
    rw [sigEntry_perm hperm]
  rw [hmap]

/-- Witness for C8 on a concrete two-function linear family. -/
theorem hash_deterministic_signature_order_independent_witness :
    ((hash_function stDemo 9 1 2 0).2 = stDemo) ∧
    create_signature stDemo [3, 4] = create_signature stDemo [4, 3] := by
  have h := hash_deterministic_signature_order_independent 2 10513
    ("linear") (fun _ => 1) (fun _ => 0) (fun _ _ => 1) stDemo (by decide)
  exact ⟨h.1 9 1 2 0, h.2 [3, 4] [4, 3] (by decide)⟩

/-- C2: the code violates the claim at the empty item set: construction
succeeds, and the finished signature of the empty item set consists of the
int64 cast of the untouched infinity sentinel — the negative value
`-2^63` — rather than finite non-negative entries or an explicit
failure. -/
theorem create_signature_empty_negative_sentinel :
    mkMinHash 2 10513 ("linear") (fun _ => 1) (fun _ => 0) (fun _ _ => 1) =
      some stDemo ∧
    (create_signature stDemo []).1 = some [-(2 ^ 63), -(2 ^ 63)] ∧
    (-(2 ^ 63) : ℤ) < 0 := by
  refine ⟨by decide, rfl, by decide⟩

/-- C10: for a successfully constructed instance the unknown-hash-kind
error branch of `hash_function` is unreachable: evaluation returns a value
for every integer key, any coefficients, and every index below
`n_hash_functions`. -/
theorem hash_function_never_raises (n p : ℕ) (tf : String) (fa fb : ℕ → ℕ)
    (fc : ℕ → ℕ → ℕ) (st : MinHashState)
    (h : mkMinHash n p tf fa fb fc = some st) (x a b : ℤ) {i : ℕ}
    (hi : i < st.n_hash_functions) :
    ((hash_function st x a b i).1).isSome = true := by
  obtain ⟨hn, hpos, hp, htf, hd, ha, hb2, hc⟩ := mkMinHash_some h
  rcases hd with hk | hk | hk
  · rw [hash_function_eq_linear hk]
    rfl
  · rw [hash_function_eq_universal hk]
    rfl
  · rw [hash_function_eq_polynomial hk
      (by rw [hc, List.length_map, List.length_range]; exact hi)]
    rfl

/-- Witness for C10 on a concrete two-function linear family. -/
theorem hash_function_never_raises_witness :
    ((hash_function stDemo 5 3 4 0).1).isSome = true :=
  hash_function_never_raises 2 10513 ("linear") (fun _ => 1) (fun _ => 0)
    (fun _ _ => 1) stDemo (by decide) 5 3 4 (by decide)

/-- Reading an in-range position of a mapped list. -/
theorem getD_map_lt {α β : Type} (f : α → β) {l : List α} {i : ℕ}
    (h : i < l.length) (d : β) (d2 : α) : (l.map f).getD i d = f (l.getD i d2) := by
  rw [List.getD_eq_getElem _ _ (by simpa using h), List.getD_eq_getElem _ _ h]
  simp

/-- Pointwise characterization of the row fold of
`generate_minhash_signatures`: entry `(i, c)` is the running minimum of
hash function `i` over the processed rows whose membership at column `c`
is 1. -/
theorem generate_minhash_char (M : ℕ → ℕ → ℕ) (n_users : ℕ)
    (hash_params : List (ℕ × ℕ)) (mod_prime : ℕ) {i c : ℕ}
    (hi : i < hash_params.length) (hc : c < n_users) :
    ∀ (rows : List ℕ) (sigm : ℕ → ℕ → Option ℕ),
      (rows.foldl (gen_row_update M n_users hash_params mod_prime) sigm) i c =
        rows.foldl (fun acc row => if M row c = 1 then
          ominN acc (((hash_params.getD i (0, 0)).1 * row +
            (hash_params.getD i (0, 0)).2) % mod_prime) else acc) (sigm i c) := by
  intro rows
  induction rows with
  | nil => intro sigm; rfl
  | cons row rest ih =>
    intro sigm
    rw [List.foldl_cons, List.foldl_cons, ih]
    congr 1
    simp only [gen_row_update]
    by_cases hm : M row c = 1
    · rw [if_pos ⟨hc, hm, by simpa using hi⟩, if_pos hm]
      congr 1
      rw [getD_map_lt _ hi 0 (0, 0)]
    · rw [if_neg (fun hcon => hm hcon.2.1), if_neg hm]

/-- Casting the running minimum from ℕ to ℤ commutes with one step. -/
theorem ominN_cast (o : Option ℕ) (u : ℕ) :
    (ominN o u).map (fun k : ℕ => (k : ℤ)) =
      omin (o.map (fun k : ℕ => (k : ℤ))) ((u : ℕ) : ℤ) := by
  cases o <;> simp [omin, ominN, Nat.cast_min]

/-- The per-set running minimum over the casted filtered rows is the cast
of the matrix path's running minimum over all rows guarded by the
membership test. -/
theorem foldl_omin_cast (aa bb p : ℕ) (M : ℕ → ℕ → ℕ) (c : ℕ) :
    ∀ (rows : List ℕ) (acc : Option ℕ),
      ((rows.filter (fun r => M r c == 1)).map (fun r : ℕ => (r : ℤ))).foldl
        (fun acc2 m => omin acc2 (((aa : ℤ) * m + (bb : ℤ)) % ((p : ℕ) : ℤ)))
        (acc.map (fun k : ℕ => (k : ℤ))) =
      (rows.foldl (fun acc2 row => if M row c = 1 then
        ominN acc2 ((aa * row + bb) % p) else acc2) acc).map
        (fun k : ℕ => (k : ℤ)) := by
  intro rows
  induction rows with
  | nil => intro acc; rfl
  | cons row rest ih =>
    intro acc
    by_cases hm : M row c = 1
    · rw [List.filter_cons_of_pos (by simpa using hm), List.map_cons,
        List.foldl_cons, List.foldl_cons, if_pos hm, ← ih]
      congr 1
      rw [ominN_cast]
      push_cast
      rfl
    · rw [List.filter_cons_of_neg (by simpa using hm), List.foldl_cons, if_neg hm]
      exact ih acc

/-- A running minimum folded over a nonempty list is always a value. -/
theorem foldl_omin_isSome (g : ℤ → ℤ) :
    ∀ (l : List ℤ), l ≠ [] → ∀ (acc : Option ℤ),
      ∃ v, l.foldl (fun a m => omin a (g m)) acc = some v := by
  intro l
  induction l with
  | nil => intro hl; cases hl rfl
  | cons m rest ih =>
    intro _ acc
    rw [List.foldl_cons]
    by_cases hrest : rest = []
    · subst hrest
      cases acc <;> exact ⟨_, rfl⟩
    · exact ih hrest _

/-- C4 (amended): over the same linear hash family (same coefficient pairs
and modulus) and the same membership data, the matrix-oriented generation
and the per-set signature computation agree on every entity whose item set
is nonempty: each matrix entry is a finite value equal to the corresponding
per-set signature entry.  For an entity with an empty item set the two
paths differ (see the counterexample): the matrix path keeps the infinity
sentinel while the per-set path casts it to `-2^63`. -/
theorem matrix_perset_signatures_agree
    (M : ℕ → ℕ → ℕ) (n_movies n_users : ℕ) (hash_params : List (ℕ × ℕ))
    (p : ℕ) (fa fb : ℕ → ℕ) (fc : ℕ → ℕ → ℕ) (st : MinHashState)
    (hmk : mkMinHash hash_params.length p ("linear") fa fb fc = some st)
    (ha : st.a = hash_params.map Prod.fst)
    (hb : st.b = hash_params.map Prod.snd)
    (c : ℕ) (hc : c < n_users)
    (hne : (List.range n_movies).filter (fun r => M r c == 1) ≠ [])
    (i : ℕ) (hi : i < hash_params.length) :
    ∃ k : ℕ,
      generate_minhash_signatures M n_movies n_users hash_params st.prime i c =
        some k ∧
      ((create_signature st (((List.range n_movies).filter
        (fun r => M r c == 1)).map (fun r : ℕ => (r : ℤ)))).1.getD []).getD i 0 =
        (k : ℤ) := by
  obtain ⟨hn, hpos, hp, htf, hd, _, _, hcoef⟩ := mkMinHash_some hmk
  have hpoly : st.type_function = "polynomial" →
      st.coefficients.length = st.n_hash_functions := by
    intro hcon
    rw [htf] at hcon
    exact absurd hcon (by decide)
  set items : List ℤ := ((List.range n_movies).filter
    (fun r => M r c == 1)).map (fun r : ℕ => (r : ℤ)) with hitems
  have hperset : ((create_signature st items).1.getD []).getD i 0 =
      astypeInt (sigEntry st items i) := by
    rw [create_signature_eval hd hpoly]
    simp only [Option.getD_some]
    rw [getD_map_range _ (0 : ℤ) (by rw [hn]; exact hi)]
  have haa : st.a.getD i 0 = (hash_params.getD i (0, 0)).1 := by
    rw [ha, getD_map_lt Prod.fst hi 0 (0, 0)]
  have hbb : st.b.getD i 0 = (hash_params.getD i (0, 0)).2 := by
    rw [hb, getD_map_lt Prod.snd hi 0 (0, 0)]
  have hfun : (fun (acc : Option ℤ) (m : ℤ) => omin acc (hashValue st m i)) =
      (fun (acc : Option ℤ) (m : ℤ) => omin acc
        ((((hash_params.getD i (0, 0)).1 : ℕ) * m +
          (((hash_params.getD i (0, 0)).2 : ℕ) : ℤ)) % ((st.prime : ℕ) : ℤ))) := by
    funext acc m
    rw [hashValue, if_pos htf, haa, hbb]
  have hitems_ne : items ≠ [] := by
    intro hcon
    apply hne
    rwa [hitems, List.map_eq_nil_iff] at hcon
  obtain ⟨v, hv⟩ := foldl_omin_isSome
    (fun m => ((((hash_params.getD i (0, 0)).1 : ℕ) : ℤ) * m +
      (((hash_params.getD i (0, 0)).2 : ℕ) : ℤ)) % ((st.prime : ℕ) : ℤ))
    items hitems_ne none
  have hsig : sigEntry st items i = some v := by
    rw [sigEntry, hfun]
    exact hv
  have hcast := foldl_omin_cast (hash_params.getD i (0, 0)).1
    (hash_params.getD i (0, 0)).2 st.prime M c (List.range n_movies) none
  have hmat : Option.map (fun k : ℕ => (k : ℤ))
      ((List.range n_movies).foldl (fun acc row => if M row c = 1 then
        ominN acc (((hash_params.getD i (0, 0)).1 * row +
          (hash_params.getD i (0, 0)).2) % st.prime) else acc) none) = some v := by
    rw [← hcast, ← hitems]
    exact hv
  have hgen := generate_minhash_char M n_users hash_params st.prime hi hc
    (List.range n_movies) (fun _ _ => none)
  have hgen2 : generate_minhash_signatures M n_movies n_users hash_params
      st.prime i c =
      (List.range n_movies).foldl (fun acc row => if M row c = 1 then
        ominN acc (((hash_params.getD i (0, 0)).1 * row +
          (hash_params.getD i (0, 0)).2) % st.prime) else acc) none := by
    unfold generate_minhash_signatures
    exact hgen
  cases hcase : (List.range n_movies).foldl (fun acc row => if M row c = 1 then
      ominN acc (((hash_params.getD i (0, 0)).1 * row +
        (hash_params.getD i (0, 0)).2) % st.prime) else acc) none with
  | none =>
    rw [hcase] at hmat
    simp at hmat
  | some k =>
    refine ⟨k, ?_, ?_⟩
    · rw [hgen2, hcase]
    · rw [hcase] at hmat
      have hvk : (k : ℤ) = v := Option.some.inj (by simpa using hmat)
      rw [hperset, hsig]
      simp [astypeInt, ← hvk]

/-- C4 counterexample: over the same linear hash family `[(1, 0)]` with
modulus 2 and the same membership data (a 1-by-1 zero matrix, so that the
single entity's item set is empty), the matrix path leaves the infinity
sentinel in the signature entry (no finite value), while the per-set path
returns the finite value `-2^63`: the two signatures are not identical. -/
theorem matrix_perset_counterexample :
    generate_minhash_signatures (fun _ _ => 0) 1 1 [(1, 0)] 2 0 0 = none ∧
    (create_signature stC4 []).1 = some [-(2 ^ 63)] ∧
    Option.map (fun k : ℕ => (k : ℤ))
      (generate_minhash_signatures (fun _ _ => 0) 1 1 [(1, 0)] 2 0 0) ≠
      some (-(2 ^ 63)) := by
  refine ⟨by decide, rfl, ?_⟩
  intro hcon
  rw [show generate_minhash_signatures (fun _ _ => 0) 1 1 [(1, 0)] 2 0 0 =
    none from by decide] at hcon
  simp at hcon

/-- Witness for C4 (amended) on a 1-by-1 membership matrix with a single
item, a single entity and the linear family `[(1, 0)]` modulo 2. -/
theorem matrix_perset_signatures_agree_witness :
    ∃ k : ℕ,
      generate_minhash_signatures (fun r col => if r = 0 ∧ col = 0 then 1 else 0)
        1 1 [(1, 0)] stC4.prime 0 0 = some k ∧
      ((create_signature stC4 (((List.range 1).filter
        (fun r => (fun r col => if r = 0 ∧ col = 0 then 1 else 0) r 0 == 1)).map
        (fun r : ℕ => (r : ℤ)))).1.getD []).getD 0 0 = (k : ℤ) :=
  matrix_perset_signatures_agree
    (fun r col => if r = 0 ∧ col = 0 then 1 else 0) 1 1 [(1, 0)] 2
    (fun _ => 1) (fun _ => 0) (fun _ _ => 1) stC4 (by decide) (by decide)
    (by decide) 0 (by decide) (by decide) 0 (by decide)
